import Mathlib

/-!
Verification development for the `kickoff` launcher.

The development shallowly embeds the three source files of the repository:

* `src/calculator.rs` — tokenizer, recursive-descent parser and evaluator for
  arithmetic query text, plus `is_math_expression` and `format_result`;
* `src/selection.rs` — the `Element` candidate model, history merging, fuzzy
  search ranking, line-directive parsing (`parse_line`) and the per-line
  aggregation loop of `build_files`;
* `src/app.rs` — the interactive session state (`App`) with its operations
  `search`, `insert`, `delete`, `delete_word`, `nav_up`, `nav_down`,
  `complete` and `execute`.

Modelling conventions:

* Rust `f64` values are modelled by `F64`, an unnormalized exact fraction of
  machine-unbounded integers.  Every arithmetic step performed by the claims
  under verification (small integer sums/products and division by small
  integers such as `9/4`) is exact in binary floating point, so the exact
  fraction model agrees with `f64` on all of them.  Shortest-roundtrip float
  `Display` formatting (used only in branches no claim inspects) is
  abstracted.
* Fallible Rust code (`Result`, `Option`) becomes `Except`/`Option`; a Rust
  `unwrap()` panic is modelled as an `Option.none` result of the surrounding
  operation.
* Recursion that Rust expresses with loops or recursion on a shrinking
  buffer is expressed with an explicit fuel parameter so that every
  definition is structurally recursive and kernel-computable; the fuel
  supplied is always sufficient for the executions the theorems evaluate.
* `Vec::sort_by` (a stable sort) is modelled by `List.insertionSort`, which
  is also stable; a stable sort's output is uniquely determined by the
  comparator, so the two agree on every input.
-/

/-- Decidable equality for `Except`, used so that concrete runs of the
embedded evaluator can be checked by `decide`. -/
instance {ε α : Type} [DecidableEq ε] [DecidableEq α] : DecidableEq (Except ε α) := fun a b =>
  match a, b with
  | .ok x, .ok y => decidable_of_iff (x = y) (by simp)
  | .ok _, .error _ => isFalse (fun h => Except.noConfusion h)
  | .error _, .ok _ => isFalse (fun h => Except.noConfusion h)
  | .error x, .error y => decidable_of_iff (x = y) (by simp)

/-! ## Whitespace and trimming (Rust `str::trim`) -/

/-- Character class of Rust `char::is_whitespace` (the Unicode `White_Space`
property), which `str::trim` strips from both ends. -/
def isRustWhitespace (c : Char) : Bool :=
  c.toNat = 0x20 || c.toNat = 0x09 || c.toNat = 0x0a || c.toNat = 0x0b ||
  c.toNat = 0x0c || c.toNat = 0x0d || c.toNat = 0x85 || c.toNat = 0xa0 ||
  c.toNat = 0x1680 || (0x2000 ≤ c.toNat && c.toNat ≤ 0x200a) ||
  c.toNat = 0x2028 || c.toNat = 0x2029 || c.toNat = 0x202f ||
  c.toNat = 0x205f || c.toNat = 0x3000

/-- Rust `str::trim` on a character list: drop whitespace from both ends. -/
def trimChars (l : List Char) : List Char :=
  ((l.dropWhile isRustWhitespace).reverse.dropWhile isRustWhitespace).reverse

/-- Rust `str::trim` on a string. -/
def trimStr (s : String) : String :=
  String.mk (trimChars s.toList)

/-! ## `src/calculator.rs` -/

/-- Exact-fraction model of Rust `f64` (see the header comment): an
unnormalized quotient `num / den`.  All arithmetic reached by the verified
claims is exact in `f64`, where this model and the source agree. -/
structure F64 where
  num : Int
  den : Int
deriving DecidableEq, Repr

/-- Sum of two `f64` values (`left += right` in `parse_addition`). -/
def F64.add (a b : F64) : F64 := ⟨a.num * b.den + b.num * a.den, a.den * b.den⟩

/-- Difference of two `f64` values (`left -= right` in `parse_addition`). -/
def F64.sub (a b : F64) : F64 := ⟨a.num * b.den - b.num * a.den, a.den * b.den⟩

/-- Product of two `f64` values (`left *= right` in `parse_multiplication`). -/
def F64.mul (a b : F64) : F64 := ⟨a.num * b.num, a.den * b.den⟩

/-- Quotient of two `f64` values (`left /= right` in `parse_multiplication`;
the caller has already ruled out a zero divisor). -/
def F64.div (a b : F64) : F64 := ⟨a.num * b.den, a.den * b.num⟩

/-- Negation of an `f64` value (`-factor` in `parse_factor`). -/
def F64.neg (a : F64) : F64 := ⟨-a.num, a.den⟩

/-- Value of an `F64` as a rational number, for specification statements. -/
def F64.toRat (a : F64) : ℚ := (a.num : ℚ) / (a.den : ℚ)

/-- Token type of the calculator (`enum Token` in `src/calculator.rs`). -/
inductive Token where
  | number (n : F64)
  | plus
  | minus
  | multiply
  | divide
  | leftParen
  | rightParen
deriving DecidableEq, Repr

/-- Digit/dot span collection loop inside `parse_number`: consume ASCII
digits and at most one `.`, returning the collected characters and the
remaining input. -/
def numberSpan : List Char → Bool → List Char × List Char
  | [], _ => ([], [])
  | c :: cs, hasDot =>
    if c.isDigit then
      let (s, rest) := numberSpan cs hasDot
      (c :: s, rest)
    else if c = '.' && !hasDot then
      let (s, rest) := numberSpan cs true
      (c :: s, rest)
    else
      ([], c :: cs)

/-- Numeric value of a collected digit/dot span, as `f64::from_str` computes
it on such strings: fails exactly when the span holds no digit (for example
`"."` or `"-."`); otherwise the exact decimal value. -/
def spanValue (neg : Bool) (l : List Char) : Option F64 :=
  if l.any Char.isDigit then
    let v := l.foldl
      (fun (acc : Int × Int × Bool) c =>
        if c = '.' then (acc.1, acc.2.1, true)
        else (acc.1 * 10 + (c.toNat - 48 : Nat), (if acc.2.2 then acc.2.1 * 10 else acc.2.1), acc.2.2))
      (0, 1, false)
    some ⟨if neg then -v.1 else v.1, v.2.1⟩
  else none

/-- Rust `parse_number`: collect a digit/dot span from the input (prefixing
`-` when `negative` is set) and parse it, returning the value and the
remaining characters, or the `Invalid number` error. -/
def parse_number (l : List Char) (negative : Bool) : Except String (F64 × List Char) :=
  let (s, rest) := numberSpan l false
  match spanValue negative s with
  | some v => .ok (v, rest)
  | none => .error ("Invalid number: " ++ (if negative then "-" else "") ++ String.mk s)

/-- Test on the last pushed token deciding whether a `-` starts a negative
numeric literal (`matches!(tokens.last(), Some(LeftParen | Plus | Minus |
Multiply | Divide))` in `tokenize`). -/
def lastAllowsNegative : Option Token → Bool
  | some .leftParen | some .plus | some .minus | some .multiply | some .divide => true
  | _ => false

/-- Main loop of `tokenize`.  The fuel only bounds the number of loop
iterations; each iteration consumes at least one input character, so
`length + 1` fuel never runs out. -/
def tokenizeAux : ℕ → List Char → List Token → Except String (List Token)
  | 0, _, _ => .error "tokenizer fuel exhausted"
  | _ + 1, [], acc => .ok acc
  | fuel + 1, c :: rest, acc =>
    if c = ' ' then tokenizeAux fuel rest acc
    else if c = '+' then tokenizeAux fuel rest (acc ++ [Token.plus])
    else if c = '-' then
      if acc.isEmpty || lastAllowsNegative acc.getLast? then
        match rest with
        | c2 :: _ =>
          if c2.isDigit || c2 = '.' then
            match parse_number rest true with
            | .ok (v, rest2) => tokenizeAux fuel rest2 (acc ++ [Token.number v])
            | .error e => .error e
          else tokenizeAux fuel rest (acc ++ [Token.minus])
        | [] => tokenizeAux fuel rest (acc ++ [Token.minus])
      else tokenizeAux fuel rest (acc ++ [Token.minus])
    else if c = '*' then tokenizeAux fuel rest (acc ++ [Token.multiply])
    else if c = '/' then tokenizeAux fuel rest (acc ++ [Token.divide])
    else if c = '(' then tokenizeAux fuel rest (acc ++ [Token.leftParen])
    else if c = ')' then tokenizeAux fuel rest (acc ++ [Token.rightParen])
    else if c.isDigit || c = '.' then
      match parse_number (c :: rest) false with
      | .ok (v, rest2) => tokenizeAux fuel rest2 (acc ++ [Token.number v])
      | .error e => .error e
    else .error ("Unexpected character: " ++ c.toString)

/-- Rust `tokenize`. -/
def tokenize (l : List Char) : Except String (List Token) :=
  tokenizeAux (l.length + 1) l []

mutual

/-- Rust `parse_expression`. -/
def parse_expression : ℕ → List Token → Except String (F64 × List Token)
  | 0, _ => .error "parser fuel exhausted"
  | fuel + 1, ts => parse_addition fuel ts

/-- Rust `parse_addition` (entry: parse the first term). -/
def parse_addition : ℕ → List Token → Except String (F64 × List Token)
  | 0, _ => .error "parser fuel exhausted"
  | fuel + 1, ts =>
    match parse_multiplication fuel ts with
    | .error e => .error e
    | .ok (left, ts2) => parse_addition_loop fuel left ts2

/-- Rust `parse_addition` (the `while let` loop over `+`/`-`). -/
def parse_addition_loop : ℕ → F64 → List Token → Except String (F64 × List Token)
  | 0, _, _ => .error "parser fuel exhausted"
  | fuel + 1, left, ts =>
    match ts with
    | .plus :: rest =>
      match parse_multiplication fuel rest with
      | .error e => .error e
      | .ok (right, ts2) => parse_addition_loop fuel (left.add right) ts2
    | .minus :: rest =>
      match parse_multiplication fuel rest with
      | .error e => .error e
      | .ok (right, ts2) => parse_addition_loop fuel (left.sub right) ts2
    | _ => .ok (left, ts)

/-- Rust `parse_multiplication` (entry: parse the first factor). -/
def parse_multiplication : ℕ → List Token → Except String (F64 × List Token)
  | 0, _ => .error "parser fuel exhausted"
  | fuel + 1, ts =>
    match parse_factor fuel ts with
    | .error e => .error e
    | .ok (left, ts2) => parse_multiplication_loop fuel left ts2

/-- Rust `parse_multiplication` (the `while let` loop over `*`/`/`, with the
division-by-exact-zero check). -/
def parse_multiplication_loop : ℕ → F64 → List Token → Except String (F64 × List Token)
  | 0, _, _ => .error "parser fuel exhausted"
  | fuel + 1, left, ts =>
    match ts with
    | .multiply :: rest =>
      match parse_factor fuel rest with
      | .error e => .error e
      | .ok (right, ts2) => parse_multiplication_loop fuel (left.mul right) ts2
    | .divide :: rest =>
      match parse_factor fuel rest with
      | .error e => .error e
      | .ok (right, ts2) =>
        if right.num = 0 then .error "Division by zero"
        else parse_multiplication_loop fuel (left.div right) ts2
    | _ => .ok (left, ts)

/-- Rust `parse_factor`. -/
def parse_factor : ℕ → List Token → Except String (F64 × List Token)
  | 0, _ => .error "parser fuel exhausted"
  | fuel + 1, ts =>
    match ts with
    | .number n :: rest => .ok (n, rest)
    | .leftParen :: rest =>
      match parse_expression fuel rest with
      | .error e => .error e
      | .ok (v, ts2) =>
        match ts2 with
        | .rightParen :: rest2 => .ok (v, rest2)
        | _ => .error "Missing closing parenthesis"
    | .minus :: rest =>
      match parse_factor fuel rest with
      | .error e => .error e
      | .ok (v, ts2) => .ok (v.neg, ts2)
    | .plus :: rest => parse_factor fuel rest
    | _ => .error "Expected number or opening parenthesis"

end

/-- Rust `evaluate` on a character list: tokenize, reject the empty token
stream, parse an expression and reject trailing tokens. -/
def evaluate_chars (l : List Char) : Except String F64 :=
  match tokenize l with
  | .error e => .error e
  | .ok tokens =>
    if tokens.isEmpty then .error "Empty expression"
    else
      match parse_expression (4 * tokens.length + 4) tokens with
      | .error e => .error e
      | .ok (result, rest) =>
        if rest.isEmpty then .ok result
        else .error "Unexpected tokens at end of expression"

/-- Rust `evaluate`. -/
def evaluate (input : String) : Except String F64 :=
  evaluate_chars input.toList

/-- Rust `is_math_expression`: trim, require non-emptiness and at least one
digit or `.`, then require a successful evaluation of the trimmed text. -/
def is_math_expression (input : String) : Bool :=
  let t := trimChars input.toList
  if t.isEmpty then false
  else if !(t.any fun c => c.isDigit || c = '.') then false
  else (evaluate_chars t).isOk

/-- Rust `format_result`, first branch faithfully (`result as i64` rendered
in decimal when the value is integral with magnitude below `1e15`); the two
remaining branches print `f64` values with `{:e}` or shortest-roundtrip
`{}` formatting, a display detail of `f64` abstracted here (no claim
inspects their output). -/
def format_result (r : F64) : String :=
  if r.num % r.den = 0 && r.num.natAbs < 1000000000000000 * r.den.natAbs then
    toString (r.num / r.den)
  else if 1000000000000000 * r.den.natAbs ≤ r.num.natAbs then
    toString r.num ++ "/" ++ toString r.den ++ "e"
  else
    toString r.num ++ "/" ++ toString r.den

/-! ## `src/selection.rs` -/

/-- Rust `struct Element` (the candidate model): display name, command
value, and history-derived base score. -/
structure Element where
  name : String
  value : String
  base_score : ℕ
deriving DecidableEq, Repr

/-- Modelled from the spec: the `History` type lives in `config.rs`, which is
not among the provided sources; per the spec's history collaborator contract
it is a sequence of entries carrying a candidate name, a command value and a
usage counter (`num_used`), read via `as_vec()`. -/
structure HistoryEntry where
  name : String
  value : String
  num_used : ℕ
deriving DecidableEq, Repr

/-- Test for a name match in the candidate list
(`self.inner.iter_mut().find(|x| x.name == entry.name)` succeeding). -/
def hasName (l : List Element) (n : String) : Bool :=
  l.any fun x => x.name = n

/-- Overwrite the `base_score` of the first element named `n` (the mutation
through `iter_mut().find(...)` in `merge_history`). -/
def setFirst : List Element → String → ℕ → List Element
  | [], _, _ => []
  | x :: xs, n, s =>
    if x.name = n then { x with base_score := s } :: xs
    else x :: setFirst xs n s

/-- Body of the `for entry in history.as_vec()` loop of `merge_history`:
overwrite the first same-named candidate's score, or push a new candidate. -/
def mergeStep (l : List Element) (e : HistoryEntry) : List Element :=
  if hasName l e.name then setFirst l e.name e.num_used
  else l ++ [⟨e.name, e.value, e.num_used⟩]

/-- Rust `ElementList::merge_history`. -/
def ElementList.merge_history (l : List Element) (history : List HistoryEntry) : List Element :=
  history.foldl mergeStep l

/-- Subsequence test: every character of the pattern appears in the text in
order, possibly with gaps. -/
def isSubseqOf : List Char → List Char → Bool
  | [], _ => true
  | _ :: _, [] => false
  | p :: ps, t :: ts => if p = t then isSubseqOf ps ts else isSubseqOf (p :: ps) ts

/-- Heuristic score of a successful fuzzy match along the greedy leftmost
matching, rewarding contiguous runs and early matches. -/
def fuzzyScoreAux : List Char → List Char → ℕ → Bool → Int
  | _, [], _, _ => 0
  | [], _ :: _, _, _ => 0
  | t :: ts, p :: ps, pos, prevHit =>
    if p = t then
      (if prevHit then 16 else 8) + (if pos = 0 then 4 else 0) +
        fuzzyScoreAux ts ps (pos + 1) true
    else fuzzyScoreAux ts (p :: ps) pos false

/-- Modelled from the spec: `SkimMatcherV2::fuzzy_match` comes from the
external `fuzzy_matcher` crate, not from this repository's sources.  Per the
spec's ranking-engine contract, matching succeeds exactly when every query
character appears in the candidate name in order (the empty query matches
trivially), and the score is a heuristic rewarding contiguous runs and early
matches. -/
def fuzzy_match (choice pattern : String) : Option Int :=
  if isSubseqOf pattern.toList choice.toList then
    some (fuzzyScoreAux choice.toList pattern.toList 0 false)
  else none

/-- Effective ranking score of a candidate for a query: fuzzy match score
plus the candidate's `base_score` (`score + x.base_score as i64`). -/
def effectiveScore (pattern : String) (x : Element) : Int :=
  (fuzzy_match x.name pattern).getD 0 + (x.base_score : Int)

/-- Rust `ElementList::search`: score every candidate, keep the matches, and
stable-sort by score descending (`sort_by(|a, b| b.0.unwrap_or(0).cmp(&a.0.unwrap_or(0)))`;
`List.insertionSort` is stable like `Vec::sort_by`, see the header). -/
def ElementList.search (inner : List Element) (pattern : String) : List Element :=
  let executables :=
    (inner.map fun x =>
      ((fuzzy_match x.name pattern).map fun score => score + (x.base_score : Int), x)).filter
      fun p => p.1.isSome
  let sorted := List.insertionSort (fun a b : Option Int × Element => b.1.getD 0 ≤ a.1.getD 0) executables
  sorted.map fun p => p.2

/-- Rust `usize::from_str` as used on the `%base_score` directive value: an
optional leading `+`, then one or more ASCII digits, rejecting values beyond
`usize::MAX` (64-bit). -/
def parseUsize (s : String) : Option ℕ :=
  let l := match s.toList with
    | '+' :: r => r
    | l => l
  if !l.isEmpty && l.all Char.isDigit then
    let n := l.foldl (fun acc c => acc * 10 + (c.toNat - 48)) 0
    if n < 2 ^ 64 then some n else none
  else none

/-- Split at the first `=` (`splitn(2, '=')`): the part before it, and the
part after it when one exists (which may itself contain `=`). -/
def splitFirstEq (l : List Char) : List Char × Option (List Char) :=
  let before := l.takeWhile fun c => c ≠ '='
  match l.dropWhile fun c => c ≠ '=' with
  | [] => (before, none)
  | _ :: after => (before, some after)

/-- Rust `parse_line`: trim the line, split on the first `=`, trim the parts
(`splitn(2, '=').map(str::trim)`); the `parts.is_empty()` arm returning
`None` with a warning is kept although `splitn` always yields at least one
part. -/
def parse_line (input : String) : Option (String × Option String) :=
  let t := trimChars input.toList
  let (b, after) := splitFirstEq t
  let parts : List String :=
    match after with
    | none => [String.mk (trimChars b)]
    | some a => [String.mk (trimChars b), String.mk (trimChars a)]
  match parts with
  | [] => none
  | k :: rest => some (k, rest.head?)

/-- Body of the per-line `match kv_pair` in `build_files` (and identically in
`build_stdin`): a `%base_score=N` directive updates the running score when
`N` parses; an empty line is skipped; other lines emit one candidate. -/
def stepLine (base_score : ℕ) (line : String) : ℕ × Option Element :=
  match parse_line line with
  | none => (base_score, none)
  | some (key, some value) =>
    if key = "%base_score" then
      match parseUsize value with
      | some v => (v, none)
      | none => (base_score, none)
    else (base_score, some ⟨key, value, base_score⟩)
  | some (key, none) =>
    if key = "" then (base_score, none)
    else (base_score, some ⟨key, key, base_score⟩)

/-- Line loop of `build_files` over one stream, threading the running base
score. -/
def buildLinesAux : ℕ → List String → List Element
  | _, [] => []
  | score, line :: rest =>
    let (score2, emitted) := stepLine score line
    (match emitted with
     | some e => [e]
     | none => []) ++ buildLinesAux score2 rest

/-- Rust `ElementListBuilder::build_files` restricted to the line-directive
ingestion of a single stream's lines (the I/O layer that produces the lines
is an external collaborator); the running base score starts at 0. -/
def build_files (lines : List String) : List Element :=
  buildLinesAux 0 lines

/-! ## `src/app.rs` -/

/-- Session fields of Rust `struct App` that the state machine reads or
writes; the rendering-only collaborators (`config`, `font`, `args`,
`history`) are external and carry no session state. -/
structure App where
  select_index : ℕ
  select_input : Bool
  all_entries : List Element
  query : String
  last_search_result : List ℕ
  calculator_result : Option (String × F64)
deriving DecidableEq, Repr

/-- Rust `App::search`: recompute the pseudo-result and the ranked index
list for the current query, reset the selection, and enter free-input mode
exactly when there is neither a pseudo-result nor a ranked result. -/
def App.search (a : App) : App :=
  let calcRes : Option (String × F64) :=
    if is_math_expression a.query then
      match evaluate a.query with
      | .ok result => some (a.query, result)
      | .error _ => none
    else none
  let search_results := ElementList.search a.all_entries a.query
  let last := search_results.filterMap fun e => a.all_entries.findIdx? fun x => x = e
  { a with
    calculator_result := calcRes
    last_search_result := last
    select_input := !calcRes.isSome && search_results.isEmpty
    select_index := 0 }

/-- Rust `App::new` restricted to the session fields: start with an empty
query and run the initial `search`. -/
def App.new (all_entries : List Element) : App :=
  App.search ⟨0, false, all_entries, "", [], none⟩

/-- Rust `App::get_total_results`: ranked results plus one for a present
pseudo-result. -/
def App.get_total_results (a : App) : ℕ :=
  (if a.calculator_result.isSome then 1 else 0) + a.last_search_result.length

/-- Rust `App::nav_up`. -/
def App.nav_up (a : App) (distance : ℕ) : App :=
  if 0 < a.select_index then { a with select_index := a.select_index - distance }
  else if a.query ≠ "" then { a with select_input := true }
  else a

/-- Rust `App::nav_down`. -/
def App.nav_down (a : App) (distance : ℕ) : App :=
  if a.select_input then
    if a.calculator_result.isSome || !a.last_search_result.isEmpty then
      { a with select_input := false, select_index := 0 }
    else a
  else
    if a.select_index < a.get_total_results - distance then
      { a with select_index := a.select_index + distance }
    else a

/-- Rust `App::delete`: drop the last query character and re-run `search`. -/
def App.delete (a : App) : App :=
  App.search { a with query := String.mk a.query.toList.dropLast }

/-- Loop of `App::delete_word` on the reversed remaining query: pop
characters until a space (which is popped too) or the start of the query. -/
def dropWordRev : List Char → List Char
  | [] => []
  | c :: rest => if c = ' ' then rest else dropWordRev rest

/-- Rust `App::delete_word`: pop one character unconditionally, then pop up
to and including the previous space, and re-run `search`. -/
def App.delete_word (a : App) : App :=
  App.search { a with query := String.mk (dropWordRev a.query.toList.reverse.tail).reverse }

/-- Rust `App::insert`: append input text to the query and re-run `search`. -/
def App.insert (a : App) (input : String) : App :=
  App.search { a with query := a.query ++ input }

/-- Rust `App::complete`.  A `none` result models the `unwrap()` panic on a
missing ranked entry: the ranked list is indexed directly with
`select_index`, with no adjustment for the pseudo-result display slot. -/
def App.complete (a : App) : Option App :=
  if a.select_input then some a
  else
    match a.last_search_result[a.select_index]? with
    | none => none
    | some ri =>
      match a.all_entries[ri]? with
      | none => none
      | some app =>
        let idx :=
          if a.query = app.name then
            if a.select_index < a.last_search_result.length - 1 then a.select_index + 1
            else a.select_index
          else a.select_index
        some { a with select_index := idx, query := app.name }

/-- Observable outcome of `App::execute`: deliver the formatted pseudo-result
to the clipboard collaborator (spawning nothing and leaving history alone),
or hand a resolved element to the print/spawn-and-record path, or do
nothing (the defensive early `return`). -/
inductive ExecOutcome where
  | clipboard (s : String)
  | deliver (e : Element)
  | nothing
deriving DecidableEq, Repr

/-- Rust `App::execute` as the outcome it produces; `none` models the
`unwrap()` panic on a missing ranked entry.  The state itself is not
modified by `execute`. -/
def App.execute (a : App) : Option ExecOutcome :=
  let special : Option ExecOutcome :=
    if !a.select_input && a.calculator_result.isSome && a.select_index = 0 then
      a.calculator_result.map fun p => .clipboard (format_result p.2)
    else none
  match special with
  | some out => some out
  | none =>
    if a.select_input then some (.deliver ⟨a.query, a.query, 0⟩)
    else
      let actual : Option ℕ :=
        if a.calculator_result.isSome then
          if a.select_index = 0 then none else some (a.select_index - 1)
        else some a.select_index
      match actual with
      | none => some .nothing
      | some ai =>
        match a.last_search_result[ai]? with
        | none => none
        | some ri =>
          match a.all_entries[ri]? with
          | none => none
          | some e => some (.deliver e)

/-- States of the session reachable from `App::new` by any sequence of the
interactive operations; a `complete` step contributes a successor only when
it does not panic, and `execute` leaves the session state unchanged. -/
inductive Reachable : App → Prop where
  | init (entries : List Element) : Reachable (App.new entries)
  | insert {a : App} (s : String) : Reachable a → Reachable (a.insert s)
  | del {a : App} : Reachable a → Reachable a.delete
  | del_word {a : App} : Reachable a → Reachable a.delete_word
  | up {a : App} (n : ℕ) : Reachable a → Reachable (a.nav_up n)
  | down {a : App} (n : ℕ) : Reachable a → Reachable (a.nav_down n)
  | comp {a a2 : App} : Reachable a → a.complete = some a2 → Reachable a2
  | exec {a : App} : Reachable a → Reachable a

/-! ## Supporting lemmas -/

theorem digitOrDot_not_ws (c : Char) (h : (c.isDigit || c = '.') = true) :
    isRustWhitespace c = false := by
  have hn : 46 ≤ c.toNat ∧ c.toNat ≤ 57 := by
    simp only [Bool.or_eq_true, decide_eq_true_eq] at h
    rcases h with h | h
    · simp only [Char.isDigit, Bool.and_eq_true, decide_eq_true_eq, ge_iff_le,
        UInt32.le_def, BitVec.le_def] at h
      have e1 : (UInt32.toBitVec 48).toNat = 48 := rfl
      have e2 : (UInt32.toBitVec 57).toNat = 57 := rfl
      have e3 : c.toNat = c.val.toBitVec.toNat := rfl
      exact ⟨by omega, by omega⟩
    · subst h; decide
  simp only [isRustWhitespace]
  simp only [Bool.or_eq_false_iff, decide_eq_false_iff_not, Bool.and_eq_false_iff]
  omega

theorem any_dropWhile_ws (l : List Char) :
    ((l.dropWhile isRustWhitespace).any fun c => c.isDigit || c = '.') =
      l.any fun c => c.isDigit || c = '.' := by
  induction l with
  | nil => rfl
  | cons c cs ih =>
    cases hw : isRustWhitespace c with
    | false => simp [List.dropWhile_cons, hw]
    | true =>
      have hp : (c.isDigit || decide (c = '.')) = false := by
        cases hpc : (c.isDigit || decide (c = '.')) with
        | false => rfl
        | true => rw [digitOrDot_not_ws c hpc] at hw; exact absurd hw (by simp)
      simp [List.dropWhile_cons, hw, hp, ih]

theorem any_trimChars (l : List Char) :
    ((trimChars l).any fun c => c.isDigit || c = '.') =
      l.any fun c => c.isDigit || c = '.' := by
  unfold trimChars
  rw [List.any_reverse, any_dropWhile_ws, List.any_reverse, any_dropWhile_ws]

/-! ## Claims about the calculator (C5, C6) -/

/-- C5 (amended): for every query `q`, `is_math_expression q` holds iff `q`
contains a digit or `.` and `evaluate` succeeds on the **trimmed** query;
the claim's concrete instances `""`, `"hello"` and `"++"` are all `false`.
(The claim as frozen, with `evaluate q` untrimmed, is refuted by
`calculator_is_math_expression_counterexample`.) -/
theorem calculator_is_math_expression_spec :
    (∀ q : String, is_math_expression q =
      ((q.toList.any fun c => c.isDigit || c = '.') && (evaluate (trimStr q)).isOk))
    ∧ is_math_expression "" = false
    ∧ is_math_expression "hello" = false
    ∧ is_math_expression "++" = false := by
  refine ⟨?_, by decide, by decide, by decide⟩
  intro q
  have hq : (q.toList.any fun c => c.isDigit || c = '.') =
      ((trimChars q.toList).any fun c => c.isDigit || c = '.') :=
    (any_trimChars q.toList).symm
  have htrim : evaluate (trimStr q) = evaluate_chars (trimChars q.toList) := rfl
  rw [hq, htrim]
  show (if (trimChars q.toList).isEmpty then false
      else if !((trimChars q.toList).any fun c => c.isDigit || c = '.') then false
      else (evaluate_chars (trimChars q.toList)).isOk) =
    (((trimChars q.toList).any fun c => c.isDigit || c = '.') &&
      (evaluate_chars (trimChars q.toList)).isOk)
  generalize trimChars q.toList = t
  cases he : t.isEmpty with
  | true =>
    have hnil : t = [] := by simpa using he
    subst hnil
    simp
  | false =>
    cases ha : t.any fun c => c.isDigit || c = '.' with
    | false => simp [he, ha]
    | true => simp [he, ha]

/-- C5 counterexample: the frozen claim's iff with the untrimmed
`evaluate q` fails at `q = "5\t"`: trailing whitespace other than a space is
trimmed by `is_math_expression` but rejected by `tokenize`. -/
theorem calculator_is_math_expression_counterexample :
    ¬ (∀ q : String, is_math_expression q =
        ((q.toList.any fun c => c.isDigit || c = '.') && (evaluate q).isOk)) := by
  intro h
  exact absurd (h "5\t") (by decide)

/-- C6: the evaluator follows the left-associative, standard-precedence
grammar on the claim's exemplars, and reports division by exact zero. -/
theorem calculator_evaluate_examples :
    (evaluate "2+3*4").map F64.toRat = .ok 14
    ∧ (evaluate "(1+2)*3").map F64.toRat = .ok 9
    ∧ (evaluate "((1+2)*3)/4").map F64.toRat = .ok 2.25
    ∧ evaluate "5/0" = .error "Division by zero" := by
  refine ⟨?_, ?_, ?_, by decide⟩
  · have h : evaluate "2+3*4" = .ok ⟨14, 1⟩ := by decide
    rw [h]
    show Except.ok (F64.toRat ⟨14, 1⟩) = Except.ok 14
    norm_num [F64.toRat]
  · have h : evaluate "(1+2)*3" = .ok ⟨9, 1⟩ := by decide
    rw [h]
    show Except.ok (F64.toRat ⟨9, 1⟩) = Except.ok 9
    norm_num [F64.toRat]
  · have h : evaluate "((1+2)*3)/4" = .ok ⟨9, 4⟩ := by decide
    rw [h]
    show Except.ok (F64.toRat ⟨9, 4⟩) = Except.ok 2.25
    norm_num [F64.toRat]

/-! ## Claims about line-directive ingestion (C8, C10) -/

/-- C8: the three-line stream yields exactly the two claimed candidates; a
non-numeric directive value leaves the running score unchanged; and in
general a `%base_score` directive line emits no candidate and replaces the
running score exactly when its value parses as a `usize`. -/
theorem build_files_directive_spec :
    build_files ["%base_score=5", "ls", "name=echo hi"] =
      [⟨"ls", "ls", 5⟩, ⟨"name", "echo hi", 5⟩]
    ∧ build_files ["%base_score=x", "ls"] = [⟨"ls", "ls", 0⟩]
    ∧ ∀ (s : ℕ) (line v : String), parse_line line = some ("%base_score", some v) →
        stepLine s line = ((parseUsize v).getD s, none) := by
  refine ⟨by decide, by decide, ?_⟩
  intro s line v h
  unfold stepLine
  rw [h]
  simp only [if_pos rfl]
  cases parseUsize v <;> rfl

/-- C8 witness: the general directive clause applied at the concrete line
`%base_score=7` with running score 0. -/
theorem build_files_directive_spec_witness :
    stepLine 0 "%base_score=7" = (7, none) := by
  have h := build_files_directive_spec.2.2 0 "%base_score=7" "7" (by decide)
  rw [h]
  decide

/-- C10: `parse_line` returns a parsed pair for every input line, and each
line of a stream either emits a single candidate or none (never aborting
the aggregation on content grounds: `stepLine` and `build_files` are total
functions of the line content). -/
theorem parse_line_total_spec :
    ∀ (line : String) (score : ℕ),
      (parse_line line).isSome = true
      ∧ ((stepLine score line).2 = none ∨ ∃ e, (stepLine score line).2 = some e) := by
  intro line score
  constructor
  · rcases hsp : splitFirstEq (trimChars line.data) with ⟨b, after⟩
    cases after <;> simp [parse_line, hsp]
  · cases h : (stepLine score line).2 with
    | none => exact Or.inl rfl
    | some e => exact Or.inr ⟨e, rfl⟩

/-! ## Claim about `complete` with a pseudo-result (C4) -/

/-- C4: in the reachable state produced by inserting the query `"2"` (a
valid arithmetic expression matching no candidate of the empty candidate
list), a pseudo-result is present, the ranked list is empty, the merged
list is non-empty, and `complete` indexes the ranked list directly with
`select_index`, dereferencing a missing entry — the `unwrap()` panic,
modelled as `none`. -/
theorem complete_panics_on_pseudo_only :
    Reachable ((App.new []).insert "2")
    ∧ ((App.new []).insert "2").calculator_result.isSome = true
    ∧ ((App.new []).insert "2").last_search_result = []
    ∧ 0 < ((App.new []).insert "2").get_total_results
    ∧ ((App.new []).insert "2").complete = none :=
  ⟨.insert "2" (.init []), by decide, by decide, by decide, by decide⟩

/-! ## Claim about `execute` (C2) -/

/-- C2: `execute` in `NavigatingResults` (`select_input = false`) with a
pseudo-result present and `select_index = 0` delivers the formatted numeric
result to the clipboard collaborator (a `clipboard` outcome, which by
construction spawns no process and leaves history untouched); otherwise in
`NavigatingResults` it resolves the ranked candidate at `select_index - 1`
when a pseudo-result is present and at `select_index` when not, through the
ranked position mapping into the candidate list; and in `FreeInputEditing`
(`select_input = true`) it resolves the literal query text as both name and
command value. -/
theorem execute_resolution_spec (a : App) :
    (a.select_input = true → a.execute = some (.deliver ⟨a.query, a.query, 0⟩))
    ∧ (∀ expr r, a.select_input = false → a.calculator_result = some (expr, r) →
        a.select_index = 0 → a.execute = some (.clipboard (format_result r)))
    ∧ (a.select_input = false → a.calculator_result = none →
        a.execute = ((a.last_search_result[a.select_index]?).bind
          fun ri => a.all_entries[ri]?).map .deliver)
    ∧ (a.select_input = false → a.calculator_result.isSome = true → 0 < a.select_index →
        a.execute = ((a.last_search_result[a.select_index - 1]?).bind
          fun ri => a.all_entries[ri]?).map .deliver) := by
  refine ⟨?_, ?_, ?_, ?_⟩
  · intro h
    simp [App.execute, h]
  · intro expr r h1 h2 h3
    simp [App.execute, h1, h2, h3]
  · intro h1 h2
    cases hl : a.last_search_result[a.select_index]? with
    | none => simp [App.execute, h1, h2, hl]
    | some ri =>
      cases he : a.all_entries[ri]? with
      | none => simp [App.execute, h1, h2, hl, he]
      | some e => simp [App.execute, h1, h2, hl, he]
  · intro h1 h2 h3
    have hne : a.select_index ≠ 0 := by omega
    cases hl : a.last_search_result[a.select_index - 1]? with
    | none => simp [App.execute, h1, h2, hl, hne]
    | some ri =>
      cases he : a.all_entries[ri]? with
      | none => simp [App.execute, h1, h2, hl, he, hne]
      | some e => simp [App.execute, h1, h2, hl, he, hne]

/-- C2 witness: the clipboard clause applied at a concrete state whose
pseudo-result is `2`. -/
theorem execute_resolution_spec_witness :
    App.execute ⟨0, false, [], "2", [], some ("2", ⟨2, 1⟩)⟩ = some (.clipboard "2") := by
  have h := (execute_resolution_spec ⟨0, false, [], "2", [], some ("2", ⟨2, 1⟩)⟩).2.1
    "2" ⟨2, 1⟩ rfl rfl rfl
  rw [h]
  decide

/-! ## Claim about `nav_down` (C3) -/

/-- C3 counterexample: `navigate_down(n)` does not end at
`min(selection_index + n, total_results - 1)`: in a `NavigatingResults`
state with two ranked results at index 0, a step of 2 is refused outright
(the index stays 0) instead of being capped at 1. -/
theorem nav_down_min_counterexample :
    ¬ (∀ (a : App) (n : ℕ), a.select_input = false → 0 < a.get_total_results →
        (a.nav_down n).select_index = min (a.select_index + n) (a.get_total_results - 1)) := by
  intro h
  exact absurd
    (h ⟨0, false, [⟨"a", "a", 0⟩, ⟨"b", "b", 0⟩], "", [0, 1], none⟩ 2 rfl (by decide))
    (by decide)

/-- C3 (amended): in `NavigatingResults`, `navigate_down(n)` adds `n` to the
selection index only when the result stays strictly below `total_results`,
and otherwise leaves the index unchanged (so a step of `n = 1` does end at
`min(selection_index + 1, total_results - 1)`, but larger steps are refused
rather than capped); in `FreeInputEditing` with `total_results > 0` it
switches to `NavigatingResults` at index 0. -/
theorem nav_down_spec (a : App) (n : ℕ) :
    (a.select_input = false → (a.nav_down n).select_index =
      (if a.select_index + n < a.get_total_results then a.select_index + n
       else a.select_index))
    ∧ (a.select_input = false → a.select_index < a.get_total_results →
        (a.nav_down 1).select_index = min (a.select_index + 1) (a.get_total_results - 1))
    ∧ (a.select_input = true → 0 < a.get_total_results →
        a.nav_down n = { a with select_input := false, select_index := 0 }) := by
  refine ⟨?_, ?_, ?_⟩
  · intro h
    simp only [App.nav_down, h, Bool.false_eq_true, if_false]
    by_cases hc : a.select_index + n < a.get_total_results
    · rw [if_pos (by omega), if_pos hc]
    · rw [if_neg (by omega), if_neg hc]
  · intro h hlt
    simp only [App.nav_down, h, Bool.false_eq_true, if_false]
    by_cases hc : a.select_index < a.get_total_results - 1
    · rw [if_pos (by omega)]
      simp only [App.select_index]
      omega
    · rw [if_neg (by omega)]
      omega
  · intro h htot
    have hcond : (a.calculator_result.isSome || !a.last_search_result.isEmpty) = true := by
      cases hc : a.calculator_result.isSome with
      | true => rfl
      | false =>
        simp only [App.get_total_results, hc, if_false, Bool.false_eq_true] at htot
        cases hll : a.last_search_result with
        | nil => rw [hll] at htot; simp at htot
        | cons x xs => simp [hc, hll]
    simp [App.nav_down, h, hcond]

/-- C3 witness: the amended characterization applied at a concrete
three-result state at index 1 with a step of 1. -/
theorem nav_down_spec_witness :
    (App.nav_down ⟨1, false, [⟨"a", "a", 0⟩, ⟨"b", "b", 0⟩, ⟨"c", "c", 0⟩], "", [0, 1, 2], none⟩ 1).select_index = 2 := by
  have h := (nav_down_spec ⟨1, false, [⟨"a", "a", 0⟩, ⟨"b", "b", 0⟩, ⟨"c", "c", 0⟩], "", [0, 1, 2], none⟩ 1).2.1 rfl (by decide)
  rw [h]
  decide

/-! ## Selection invariant machinery (C1) -/

/-- Invariant relating the mode to the merged result count: out of
free-input mode, the selection index is strictly inside the merged result
list (and that list is non-empty). -/
def SelInv (a : App) : Prop :=
  a.select_input = false → 0 < a.get_total_results ∧ a.select_index < a.get_total_results

theorem mem_of_mem_search {inner : List Element} {pattern : String} {x : Element}
    (h : x ∈ ElementList.search inner pattern) : x ∈ inner := by
  unfold ElementList.search at h
  rcases List.mem_map.mp h with ⟨p, hp, hpx⟩
  have hp2 : p ∈ (inner.map fun y =>
      ((fuzzy_match y.name pattern).map fun score => score + (y.base_score : Int), y)).filter
      fun q => q.1.isSome :=
    (List.Perm.mem_iff (List.perm_insertionSort _ _)).mp hp
  have hp3 := List.mem_of_mem_filter hp2
  rcases List.mem_map.mp hp3 with ⟨y, hy, hyy⟩
  rw [← hpx, ← hyy]
  exact hy

theorem findIdx_isSome_of_mem {x : Element} {l : List Element} (h : x ∈ l) :
    (l.findIdx? fun y => y = x).isSome = true := by
  cases hf : l.findIdx? fun y => y = x with
  | some i => rfl
  | none =>
    have := List.findIdx?_eq_none_iff.mp hf x h
    simp at this

theorem inv_mk (inner : List Element) (q : String) (c : Option (String × F64))
    (results : List Element) (hsub : ∀ x ∈ results, x ∈ inner) :
    SelInv (App.mk 0 (!c.isSome && results.isEmpty) inner q
      (results.filterMap fun e => inner.findIdx? fun x => x = e) c) := by
  intro hsi
  simp only [App.get_total_results]
  rcases Bool.and_eq_false_iff.mp hsi with hc | hr
  · have hcs : c.isSome = true := by simpa using hc
    simp [hcs]
  · cases results with
    | nil => simp at hr
    | cons e rest =>
      have he : e ∈ inner := hsub e (List.mem_cons_self e rest)
      have hf := findIdx_isSome_of_mem he
      rw [List.filterMap_cons]
      cases hfi : inner.findIdx? fun x => x = e with
      | none => rw [hfi] at hf; simp at hf
      | some i =>
        cases c.isSome <;> simp

theorem inv_search (a : App) : SelInv a.search :=
  inv_mk a.all_entries a.query _ _ (fun _ hx => mem_of_mem_search hx)

theorem inv_nav_up (a : App) (n : ℕ) (ih : SelInv a) : SelInv (a.nav_up n) := by
  unfold App.nav_up
  by_cases h0 : 0 < a.select_index
  · rw [if_pos h0]
    intro hsi
    have hh := ih hsi
    simp only [App.get_total_results] at *
    exact ⟨hh.1, by omega⟩
  · rw [if_neg h0]
    by_cases hq : a.query ≠ ""
    · rw [if_pos hq]
      intro hsi
      exact absurd hsi (by simp)
    · rw [if_neg hq]
      exact ih

theorem inv_nav_down (a : App) (n : ℕ) (ih : SelInv a) : SelInv (a.nav_down n) := by
  unfold App.nav_down
  cases hsi : a.select_input with
  | true =>
    rw [if_pos (by simp [hsi])]
    by_cases hc : (a.calculator_result.isSome || !a.last_search_result.isEmpty) = true
    · rw [if_pos hc]
      intro _
      simp only [App.get_total_results]
      rcases Bool.or_eq_true_iff.mp hc with h | h
      · simp [h]
      · cases hll : a.last_search_result with
        | nil => rw [hll] at h; simp at h
        | cons x xs => cases a.calculator_result.isSome <;> simp [hll]
    · rw [if_neg hc]
      exact ih
  | false =>
    rw [if_neg (by simp [hsi])]
    by_cases hlt : a.select_index < a.get_total_results - n
    · rw [if_pos hlt]
      intro _
      have hh := ih hsi
      simp only [App.get_total_results] at *
      exact ⟨hh.1, by omega⟩
    · rw [if_neg hlt]
      exact ih

theorem inv_complete {a a2 : App} (ih : SelInv a) (h : a.complete = some a2) :
    SelInv a2 := by
  unfold App.complete at h
  cases hsi : a.select_input with
  | true =>
    rw [if_pos (by simp [hsi])] at h
    cases h
    exact ih
  | false =>
    rw [if_neg (by simp [hsi])] at h
    cases hl : a.last_search_result[a.select_index]? with
    | none => rw [hl] at h; cases h
    | some ri =>
      rw [hl] at h
      dsimp only at h
      cases he : a.all_entries[ri]? with
      | none => rw [he] at h; cases h
      | some app =>
        rw [he] at h
        dsimp only at h
        have hlen : a.select_index < a.last_search_result.length := by
          by_contra hh
          rw [List.getElem?_eq_none (by omega)] at hl
          cases hl
        have hh := ih hsi
        simp only [Option.some.injEq] at h
        subst h
        intro _
        simp only [App.get_total_results] at *
        constructor
        · exact hh.1
        · have : a.last_search_result.length ≤
              (if a.calculator_result.isSome then 1 else 0) + a.last_search_result.length := by
            omega
          split_ifs <;> omega

theorem reachable_inv {a : App} (h : Reachable a) : SelInv a := by
  induction h with
  | init entries => exact inv_search _
  | insert s _ ih => exact inv_search _
  | del _ ih => exact inv_search _
  | del_word _ ih => exact inv_search _
  | up n _ ih => exact inv_nav_up _ n ih
  | down n _ ih => exact inv_nav_down _ n ih
  | comp _ hc ih => exact inv_complete ih hc
  | exec _ ih => exact ih

/-! ## Claim C1: selection invariant over reachable states -/

/-- C1 counterexample: the frozen invariant — `total_results > 0` forces
`NavigatingResults` — fails on a reachable state: from the state reached by
inserting `"2"` (one pseudo-result, `NavigatingResults` at index 0),
`navigate_up` switches to `FreeInputEditing` while `total_results = 1`. -/
theorem selection_invariant_counterexample :
    ¬ (∀ a : App, Reachable a →
        (0 < a.get_total_results →
          a.select_input = false ∧ a.select_index < a.get_total_results)
        ∧ (a.get_total_results = 0 → a.query ≠ "" → a.select_input = true)) := by
  intro h
  have hr : Reachable (((App.new []).insert "2").nav_up 1) :=
    .up 1 (.insert "2" (.init []))
  have h2 := (h _ hr).1 (by decide)
  exact absurd h2.1 (by decide)

/-- C1 (amended): over all reachable session states, whenever the mode is
`NavigatingResults` (`select_input = false`) the merged result list is
non-empty and `0 ≤ selection_index < total_results`; and whenever
`total_results = 0` and the query is non-empty the mode is
`FreeInputEditing`.  (Contrary to the frozen claim, `total_results > 0`
does not force `NavigatingResults`: `navigate_up` at index 0 with a
non-empty query switches to `FreeInputEditing` without clearing the
results, see `selection_invariant_counterexample`.) -/
theorem selection_invariant_spec :
    ∀ a : App, Reachable a →
      (a.select_input = false →
        0 < a.get_total_results ∧ a.select_index < a.get_total_results)
      ∧ (a.get_total_results = 0 → a.query ≠ "" → a.select_input = true) := by
  intro a h
  have inv := reachable_inv h
  refine ⟨inv, ?_⟩
  intro h0 _
  cases hsi : a.select_input with
  | true => rfl
  | false =>
    have := (inv hsi).1
    omega

/-- C1 witness: the amended invariant applied to the freshly created session
over one candidate, whose single ranked result is selected at index 0. -/
theorem selection_invariant_spec_witness :
    0 < (App.new [⟨"ls", "ls", 0⟩]).get_total_results
    ∧ (App.new [⟨"ls", "ls", 0⟩]).select_index <
        (App.new [⟨"ls", "ls", 0⟩]).get_total_results :=
  (selection_invariant_spec _ (.init _)).1 (by decide)

/-! ## Claim about ranking (C7) -/

theorem score_eq_of_mem_executables {inner : List Element} {pattern : String}
    {p : Option Int × Element}
    (hp : p ∈ (inner.map fun x =>
        ((fuzzy_match x.name pattern).map fun score => score + (x.base_score : Int), x)).filter
        fun q => q.1.isSome) :
    p.1 = some (effectiveScore pattern p.2)
    ∧ isSubseqOf pattern.toList p.2.name.toList = true := by
  have hps : p.1.isSome := (List.mem_filter.mp hp).2
  rcases List.mem_map.mp (List.mem_of_mem_filter hp) with ⟨y, hy, hyy⟩
  subst hyy
  cases hm : fuzzy_match y.name pattern with
  | none =>
    rw [hm] at hps
    simp at hps
  | some sc =>
    constructor
    · simp [hm, effectiveScore]
    · have : isSubseqOf pattern.toList y.name.toList = true := by
        unfold fuzzy_match at hm
        by_contra hns
        rw [if_neg (by simpa using hns)] at hm
        cases hm
      exact this

/-- C7: for every candidate list and query, a candidate whose name does not
contain the query as an ordered character subsequence never appears in the
ranked output of `search`, and the ranked output is non-increasing in the
effective score (fuzzy match score plus `base_score`). -/
theorem search_ranking_spec :
    ∀ (inner : List Element) (pattern : String),
      (∀ x ∈ ElementList.search inner pattern,
        isSubseqOf pattern.toList x.name.toList = true)
      ∧ List.Pairwise (fun x y => effectiveScore pattern y ≤ effectiveScore pattern x)
          (ElementList.search inner pattern) := by
  intro inner pattern
  constructor
  · intro x hx
    unfold ElementList.search at hx
    rcases List.mem_map.mp hx with ⟨p, hp, hpx⟩
    have hp2 := (List.Perm.mem_iff (List.perm_insertionSort _ _)).mp hp
    have h := (score_eq_of_mem_executables hp2).2
    rw [← hpx]
    exact h
  · unfold ElementList.search
    rw [List.pairwise_map]
    haveI : IsTotal (Option Int × Element)
        (fun a b => b.1.getD 0 ≤ a.1.getD 0) := ⟨fun a b => le_total _ _⟩
    haveI : IsTrans (Option Int × Element)
        (fun a b => b.1.getD 0 ≤ a.1.getD 0) := ⟨fun _ _ _ hab hbc => le_trans hbc hab⟩
    have hs := List.sorted_insertionSort
      (fun a b : Option Int × Element => b.1.getD 0 ≤ a.1.getD 0)
      ((inner.map fun x =>
        ((fuzzy_match x.name pattern).map fun score => score + (x.base_score : Int), x)).filter
        fun q => q.1.isSome)
    refine List.Pairwise.imp_of_mem ?_ hs
    intro p q hpm hqm hr
    have hp2 := (List.Perm.mem_iff (List.perm_insertionSort _ _)).mp hpm
    have hq2 := (List.Perm.mem_iff (List.perm_insertionSort _ _)).mp hqm
    have hps := (score_eq_of_mem_executables hp2).1
    have hqs := (score_eq_of_mem_executables hq2).1
    rw [hps, hqs] at hr
    simpa using hr

/-- C7 witness: the exclusion clause applied at a concrete search. -/
theorem search_ranking_spec_witness :
    isSubseqOf "a".toList "ab".toList = true :=
  (search_ranking_spec [⟨"ab", "ab", 0⟩] "a").1 ⟨"ab", "ab", 0⟩ (by decide)

/-! ## History-merge machinery (C9) -/

/-- First score recorded for a name, used to recognize overwrites that do
not change the list. -/
def getFirstScore : List Element → String → Option ℕ
  | [], _ => none
  | x :: xs, n => if x.name = n then some x.base_score else getFirstScore xs n

theorem merge_cons (L : List Element) (f : HistoryEntry) (t : List HistoryEntry) :
    ElementList.merge_history L (f :: t) = ElementList.merge_history (mergeStep L f) t := rfl

theorem hasName_setFirst (l : List Element) (n m : String) (s : ℕ) :
    hasName (setFirst l n s) m = hasName l m := by
  induction l with
  | nil => rfl
  | cons x xs ih =>
    by_cases hx : x.name = n
    · simp [setFirst, hasName, hx]
    · simp only [setFirst, if_neg hx, hasName, List.any_cons]
      simp only [hasName] at ih
      rw [ih]

theorem setFirst_setFirst_same (l : List Element) (n : String) (s s2 : ℕ) :
    setFirst (setFirst l n s) n s2 = setFirst l n s2 := by
  induction l with
  | nil => rfl
  | cons x xs ih =>
    by_cases hx : x.name = n
    · simp [setFirst, hx]
    · simp [setFirst, hx, ih]

theorem setFirst_comm (l : List Element) {n m : String} (hnm : n ≠ m) (s s2 : ℕ) :
    setFirst (setFirst l n s) m s2 = setFirst (setFirst l m s2) n s := by
  induction l with
  | nil => rfl
  | cons x xs ih =>
    by_cases hxn : x.name = n
    · have hxm : ¬ x.name = m := fun hh => hnm (hxn ▸ hh ▸ rfl)
      simp [setFirst, hxn, hxm, hnm, Ne.symm hnm]
    · by_cases hxm : x.name = m
      · simp [setFirst, hxn, hxm, hnm, Ne.symm hnm]
      · simp [setFirst, hxn, hxm, ih]

theorem setFirst_append_left {l : List Element} {n : String} (h : hasName l n = true)
    (s : ℕ) (l2 : List Element) :
    setFirst (l ++ l2) n s = setFirst l n s ++ l2 := by
  induction l with
  | nil => simp [hasName] at h
  | cons x xs ih =>
    by_cases hx : x.name = n
    · simp [setFirst, hx]
    · have h2 : hasName xs n = true := by
        simpa [hasName, List.any_cons, hx] using h
      simp [setFirst, hx, ih h2]

theorem setFirst_eq_self {l : List Element} {n : String} {s : ℕ}
    (h : getFirstScore l n = some s) : setFirst l n s = l := by
  induction l with
  | nil => rfl
  | cons x xs ih =>
    by_cases hx : x.name = n
    · simp only [getFirstScore, if_pos hx, Option.some.injEq] at h
      subst h
      simp only [setFirst, if_pos hx]
    · simp only [getFirstScore, if_neg hx] at h
      simp [setFirst, hx, ih h]

theorem getFirstScore_setFirst_ne {n m : String} (hnm : m ≠ n) (l : List Element) (s : ℕ) :
    getFirstScore (setFirst l n s) m = getFirstScore l m := by
  induction l with
  | nil => rfl
  | cons x xs ih =>
    by_cases hxn : x.name = n
    · have hxm : ¬ x.name = m := fun hh => hnm (hh ▸ hxn ▸ rfl)
      simp [setFirst, getFirstScore, hxn, hxm, hnm, Ne.symm hnm]
    · by_cases hxm : x.name = m
      · simp [setFirst, getFirstScore, hxn, hxm, hnm, Ne.symm hnm]
      · simp [setFirst, getFirstScore, hxn, hxm, ih]

theorem getFirstScore_setFirst_self {l : List Element} {n : String}
    (h : hasName l n = true) (s : ℕ) :
    getFirstScore (setFirst l n s) n = some s := by
  induction l with
  | nil => simp [hasName] at h
  | cons x xs ih =>
    by_cases hx : x.name = n
    · simp [setFirst, getFirstScore, hx]
    · have h2 : hasName xs n = true := by
        simpa [hasName, List.any_cons, hx] using h
      simp [setFirst, getFirstScore, hx, ih h2]

theorem getFirstScore_append_left {l : List Element} {n : String}
    (h : hasName l n = true) (l2 : List Element) :
    getFirstScore (l ++ l2) n = getFirstScore l n := by
  induction l with
  | nil => simp [hasName] at h
  | cons x xs ih =>
    by_cases hx : x.name = n
    · simp [getFirstScore, hx]
    · have h2 : hasName xs n = true := by
        simpa [hasName, List.any_cons, hx] using h
      simp [getFirstScore, hx, ih h2]

theorem getFirstScore_append_right {l : List Element} {n : String}
    (h : hasName l n = false) (l2 : List Element) :
    getFirstScore (l ++ l2) n = getFirstScore l2 n := by
  induction l with
  | nil => rfl
  | cons x xs ih =>
    unfold hasName at h
    rw [List.any_cons, Bool.or_eq_false_iff] at h
    have hx : ¬ x.name = n := by simpa using h.1
    simp [getFirstScore, hx, ih h.2]

theorem mergeStep_of_hasName {l : List Element} {e : HistoryEntry}
    (h : hasName l e.name = true) :
    mergeStep l e = setFirst l e.name e.num_used := by
  unfold mergeStep
  rw [if_pos h]

theorem hasName_mergeStep_self (l : List Element) (e : HistoryEntry) :
    hasName (mergeStep l e) e.name = true := by
  unfold mergeStep
  by_cases hl : hasName l e.name
  · rw [if_pos hl, hasName_setFirst]
    exact hl
  · rw [if_neg hl]
    simp [hasName, List.any_append]

theorem hasName_mergeStep_mono {l : List Element} {m : String}
    (h : hasName l m = true) (e : HistoryEntry) : hasName (mergeStep l e) m = true := by
  unfold mergeStep
  by_cases hl : hasName l e.name
  · rw [if_pos hl, hasName_setFirst]
    exact h
  · rw [if_neg hl]
    simp only [hasName, List.any_append] at *
    simp [h]

theorem hasName_merge_mono {t : List HistoryEntry} {L : List Element} {m : String}
    (h : hasName L m = true) : hasName (ElementList.merge_history L t) m = true := by
  induction t generalizing L with
  | nil => exact h
  | cons f t ih => exact ih (hasName_mergeStep_mono h f)

theorem getFirstScore_mergeStep_ne {L : List Element} {f : HistoryEntry} {n : String}
    (hf : f.name ≠ n) (h : hasName L n = true) :
    getFirstScore (mergeStep L f) n = getFirstScore L n := by
  unfold mergeStep
  by_cases hLf : hasName L f.name
  · rw [if_pos hLf]
    exact getFirstScore_setFirst_ne (fun hh => hf hh.symm) L f.num_used
  · rw [if_neg hLf]
    exact getFirstScore_append_left h _

theorem getFirstScore_mergeStep_self (l : List Element) (e : HistoryEntry) :
    getFirstScore (mergeStep l e) e.name = some e.num_used := by
  unfold mergeStep
  by_cases hl : hasName l e.name
  · rw [if_pos hl]
    exact getFirstScore_setFirst_self hl _
  · rw [if_neg hl]
    rw [getFirstScore_append_right (by simpa using hl)]
    simp [getFirstScore]

theorem getFirstScore_merge_not_mem {t : List HistoryEntry} {L : List Element} {n : String}
    (hnot : ∀ f ∈ t, f.name ≠ n) (h : hasName L n = true) :
    getFirstScore (ElementList.merge_history L t) n = getFirstScore L n := by
  induction t generalizing L with
  | nil => rfl
  | cons f t ih =>
    rw [merge_cons]
    rw [ih (fun g hg => hnot g (List.mem_cons_of_mem f hg)) (hasName_mergeStep_mono h f)]
    exact getFirstScore_mergeStep_ne (hnot f (List.mem_cons_self f t)) h

theorem merge_history_setFirst {t : List HistoryEntry} {L : List Element} {n : String}
    {s : ℕ} (h : hasName L n = true) :
    ElementList.merge_history (setFirst L n s) t =
      (if (t.any fun e => e.name = n) then ElementList.merge_history L t
       else setFirst (ElementList.merge_history L t) n s) := by
  induction t generalizing L s with
  | nil => simp [ElementList.merge_history]
  | cons f t ih =>
    rw [merge_cons, merge_cons]
    by_cases hf : f.name = n
    · have h1 : mergeStep (setFirst L n s) f = setFirst L n f.num_used := by
        unfold mergeStep
        rw [if_pos (by rw [hasName_setFirst, hf]; exact h), hf, setFirst_setFirst_same]
      have h2 : mergeStep L f = setFirst L n f.num_used := by
        unfold mergeStep
        rw [if_pos (by rw [hf]; exact h), hf]
      rw [h1, h2, if_pos (by simp [hf])]
    · have hcond : ((f :: t).any fun e => e.name = n) = (t.any fun e => e.name = n) := by
        simp [hf]
      cases hLf : hasName L f.name with
      | true =>
        have h1 : mergeStep (setFirst L n s) f = setFirst (mergeStep L f) n s := by
          unfold mergeStep
          rw [if_pos (by rw [hasName_setFirst]; exact hLf), if_pos hLf]
          exact setFirst_comm L (fun hh => hf hh.symm) s f.num_used
        rw [h1, ih (hasName_mergeStep_mono h f), hcond]
      | false =>
        have h1 : mergeStep (setFirst L n s) f = setFirst (mergeStep L f) n s := by
          unfold mergeStep
          rw [if_neg (by rw [hasName_setFirst]; simp [hLf]), if_neg (by simp [hLf])]
          exact (setFirst_append_left h s _).symm
        rw [h1, ih (hasName_mergeStep_mono h f), hcond]

/-! ## Claim C9: history merge idempotence -/

/-- C9: `merge_history` is idempotent — merging the same unchanged history a
second time yields the same list (hence the same `base_score` assignment) as
merging it once; the per-entry overwrite-or-insert behaviour is embodied by
`mergeStep`. -/
theorem merge_history_idempotent :
    ∀ (l : List Element) (h : List HistoryEntry),
      ElementList.merge_history (ElementList.merge_history l h) h =
        ElementList.merge_history l h := by
  intro l h
  induction h generalizing l with
  | nil => rfl
  | cons e t ih =>
    rw [merge_cons, merge_cons]
    have hl2 : hasName (mergeStep l e) e.name = true := hasName_mergeStep_self l e
    have hM : hasName (ElementList.merge_history (mergeStep l e) t) e.name = true :=
      hasName_merge_mono hl2
    rw [mergeStep_of_hasName hM, merge_history_setFirst hM]
    by_cases ht : (t.any fun f => f.name = e.name) = true
    · rw [if_pos ht]
      exact ih (mergeStep l e)
    · rw [if_neg ht]
      rw [ih (mergeStep l e)]
      have hsc : getFirstScore (ElementList.merge_history (mergeStep l e) t) e.name =
          some e.num_used := by
        rw [getFirstScore_merge_not_mem ?hnm hl2]
        · exact getFirstScore_mergeStep_self l e
        case hnm =>
          intro f hfm hfe
          exact ht (List.any_eq_true.mpr ⟨f, hfm, by simp [hfe]⟩)
      exact setFirst_eq_self hsc
